import Mathlib

/-!
Verification of the limit order book core (`orderbook.cpp`, primary variant,
and `orderbook_multimap.cpp`, multimap variant) against its specification.

Shallow embedding conventions:
* `Price` (C++ `double`) is embedded as `Rat`: prices are only ever compared
  (`<`, `==`, `!=`), never combined arithmetically, so any finite set of
  exactly representable doubles behaves identically to the rationals.
* `Quantity` (C++ `size_t`) is embedded as `Nat`.  The only subtraction in
  the source is `q -= m` with `m = min(...) ≤ q`, where unsigned wrap-around
  and Nat truncation agree.
* `std::map<Price, Orders, Cmp>` is embedded as an association list kept in
  comparator order (`bids` descending, `asks` ascending); `std::list<Order>`
  as `List Order`; `std::unordered_map` as an association list in insertion
  order (erasure = filtering the key out).
* C++ exceptions become `Except Err`; every `throw` in the source happens
  before any mutation, so an `error` result leaves the book untouched.
* Iterators stored in `orderMap` are embedded as the stable data they carry:
  the side the order was inserted on and its price-level key; the order node
  itself is recovered by its (unique) identifier.
-/

namespace OrderBookSpec

abbrev OrderID := Int
abbrev Price := Rat
abbrev Quantity := Nat
abbrev Symbol := String

inductive Side where
  | Buy
  | Sell
deriving DecidableEq, Repr

/-- `struct Order` of `orderbook.cpp`.  Field types are written concretely
(`Int`, `Rat`, `Nat`, `String`) so that arithmetic on them is recognised
syntactically; they coincide with the aliases above. -/
structure Order where
  orderID : Int
  price : Rat
  quantity : Nat
  side : Side
  symbol : String
deriving DecidableEq, Repr

/-- Error taxonomy of the source's `throw std::runtime_error(...)` sites. -/
inductive Err where
  | duplicateOrderID
  | orderNotFound
  | orderMismatch
  | invalidSide
deriving DecidableEq, Repr

/-- One line of the trade report printed by `OrderBook::match`:
bid order id, ask order id, the ask order's symbol, the best ask level's
price, and the matched quantity. -/
structure Trade where
  bidOrderID : Int
  askOrderID : Int
  symbol : String
  price : Rat
  quantity : Nat
deriving DecidableEq, Repr

abbrev Orders := List Order

/-- `std::map<Price, Orders, Cmp>` as an association list in comparator
order. -/
abbrev PriceLevels := List (Price × Orders)

/-- `OrderMap` entry: order id ↦ the stable content of the stored iterator
pair (side the order was inserted on, key of its price level). -/
abbrev OrderMap := List (OrderID × Side × Price)

/-- The `OrderBook` class state: bids (descending), asks (ascending) and the
id → location map. -/
structure OrderBook where
  bids : PriceLevels
  asks : PriceLevels
  orderMap : OrderMap
deriving DecidableEq, Repr

/-- `orderMap.find(id)`, returning the stored location. -/
def lookupLoc (m : OrderMap) (id : OrderID) : Option (Side × Price) :=
  (m.find? (fun e => decide (e.1 = id))).map (·.2)

/-- `orderMap.erase(id)`. -/
def eraseLoc (m : OrderMap) (id : OrderID) : OrderMap :=
  m.filter (fun e => decide (e.1 ≠ id))

/-- Key comparator of the bids map (`std::greater<Price>`): `a` is ordered
before `b` iff `a > b`. -/
def bidBefore (a b : Price) : Bool := b < a

/-- Key comparator of the asks map (`std::less<Price>`): `a` is ordered
before `b` iff `a < b`. -/
def askBefore (a b : Price) : Bool := a < b

/-- `priceLevels.try_emplace(order.price, Orders{})` followed by
`push_back(order)`: append the order to the queue of its price level,
creating the level at its comparator position when absent.  For the strict
total orders used here, key equivalence of the `std::map` coincides with
equality. -/
def insertSide (before : Price → Price → Bool) (o : Order) :
    PriceLevels → PriceLevels
  | [] => [(o.price, [o])]
  | (p, l) :: rest =>
    if o.price = p then (p, l ++ [o]) :: rest
    else if before o.price p then (o.price, [o]) :: (p, l) :: rest
    else (p, l) :: insertSide before o rest

/-- The price-level index of one side of the book. -/
def sideLevels (B : OrderBook) (s : Side) : PriceLevels :=
  match s with
  | .Buy => B.bids
  | .Sell => B.asks

/-- Dereference a stored price-level iterator: the queue at key `p`. -/
def getLevel (ls : PriceLevels) (p : Price) : Option Orders :=
  (ls.find? (fun e => decide (e.1 = p))).map (·.2)

/-- Write a queue back through a price-level iterator at key `p`. -/
def setLevel (p : Price) (l : Orders) : PriceLevels → PriceLevels
  | [] => []
  | (q, m) :: rest =>
    if q = p then (p, l) :: rest else (q, m) :: setLevel p l rest

/-- `priceLevels.erase(priceLevelIter)` for the level keyed `p`. -/
def eraseLevel (p : Price) (ls : PriceLevels) : PriceLevels :=
  ls.eraseP (fun e => decide (e.1 = p))

/-- `orderList.erase(orderIter)`: remove the order node the stored iterator
designates, i.e. the unique node carrying this identifier. -/
def removeOrderFromLevel (id : OrderID) (l : Orders) : Orders :=
  l.eraseP (fun x => decide (x.orderID = id))

/-- `orderToModify.quantity = order.quantity` through the stored iterator:
update the node carrying this identifier in place. -/
def updateOrderInLevel (id : OrderID) (q : Quantity) : Orders → Orders
  | [] => []
  | x :: rest =>
    if x.orderID = id then { x with quantity := q } :: rest
    else x :: updateOrderInLevel id q rest

/-- `OrderBook::insert(const Order&)`: duplicate check, then append to the
side selected by `order.side` and record the location. -/
def OrderBook.insert (B : OrderBook) (o : Order) : Except Err OrderBook :=
  if (lookupLoc B.orderMap o.orderID).isSome then
    .error .duplicateOrderID
  else
    match o.side with
    | .Buy =>
      .ok { B with
        bids := insertSide bidBefore o B.bids
        orderMap := B.orderMap ++ [(o.orderID, Side.Buy, o.price)] }
    | .Sell =>
      .ok { B with
        asks := insertSide askBefore o B.asks
        orderMap := B.orderMap ++ [(o.orderID, Side.Sell, o.price)] }

/-- `OrderBook::cancel(const Order&)`.  The order node is removed through the
stored iterator (hence from the side it actually resides on), but if the
queue empties, the level erase targets the index selected by the ARGUMENT's
`order.side`; when that disagrees with the stored side the source erases a
foreign iterator (undefined behaviour), modelled here as erasing the level
with the same key from the wrongly selected index. -/
def OrderBook.cancel (B : OrderBook) (o : Order) : Except Err OrderBook :=
  match lookupLoc B.orderMap o.orderID with
  | none => .error .orderNotFound
  | some (storedSide, storedPrice) =>
    match getLevel (sideLevels B storedSide) storedPrice with
    | none => .error .orderNotFound
      -- unreachable for consistent books: a dangling level iterator
    | some lvl =>
      let lvl' := removeOrderFromLevel o.orderID lvl
      let B1 : OrderBook :=
        match storedSide with
        | .Buy => { B with bids := setLevel storedPrice lvl' B.bids }
        | .Sell => { B with asks := setLevel storedPrice lvl' B.asks }
      let B2 : OrderBook :=
        if lvl'.isEmpty then
          match o.side with
          | .Buy => { B1 with bids := eraseLevel storedPrice B1.bids }
          | .Sell => { B1 with asks := eraseLevel storedPrice B1.asks }
        else B1
      .ok { B2 with orderMap := eraseLoc B2.orderMap o.orderID }

/-- `OrderBook::modify(const Order&)`: locate, check identity fields, then
either cancel+insert (price changed) or update the quantity in place. -/
def OrderBook.modify (B : OrderBook) (o : Order) : Except Err OrderBook :=
  match lookupLoc B.orderMap o.orderID with
  | none => .error .orderNotFound
  | some (storedSide, storedPrice) =>
    match getLevel (sideLevels B storedSide) storedPrice with
    | none => .error .orderNotFound
      -- unreachable for consistent books: a dangling level iterator
    | some lvl =>
      match lvl.find? (fun x => decide (x.orderID = o.orderID)) with
      | none => .error .orderNotFound
        -- unreachable likewise: a dangling order iterator
      | some r =>
        if r.orderID ≠ o.orderID ∨ r.side ≠ o.side ∨ r.symbol ≠ o.symbol then
          .error .orderMismatch
        else if r.price ≠ o.price then
          (B.cancel o).bind (fun B1 => B1.insert o)
        else
          let lvl' := updateOrderInLevel o.orderID o.quantity lvl
          match storedSide with
          | .Buy => .ok { B with bids := setLevel storedPrice lvl' B.bids }
          | .Sell => .ok { B with asks := setLevel storedPrice lvl' B.asks }

/-- The inner loop of `OrderBook::match` over the queues of the best bid and
best ask levels.  Each iteration pairs the queue fronts, trades
`min` of the two quantities at the ask level's price, and then runs
`cleanupAndIterate` on BOTH iterators: a zero-quantity order is erased (the
iterator moving to the next node), a positive-remainder order is skipped by
`++orderIter`.  Returns (surviving bid queue, surviving ask queue, trades in
emission order, ids erased from the order map in erasure order). -/
def innerPass (askPrice : Price) :
    Orders → Orders → Orders × Orders × List Trade × List OrderID
  | [], as => ([], as, [], [])
  | bs, [] => (bs, [], [], [])
  | b :: bs, a :: as =>
    let m := min b.quantity a.quantity
    let t : Trade := ⟨b.orderID, a.orderID, a.symbol, askPrice, m⟩
    let bq := b.quantity - m
    let aq := a.quantity - m
    let r := innerPass askPrice bs as
    ( (if bq = 0 then r.1 else { b with quantity := bq } :: r.1),
      (if aq = 0 then r.2.1 else { a with quantity := aq } :: r.2.1),
      t :: r.2.2.1,
      (if bq = 0 then [b.orderID] else []) ++
        (if aq = 0 then [a.orderID] else []) ++ r.2.2.2 )

/-- Sequential `orderMap.erase(orderID)` calls issued by the cleanup
lambda. -/
def stripRemoved (m : OrderMap) (rem : List OrderID) : OrderMap :=
  rem.foldl (fun acc id => eraseLoc acc id) m

/-- Number of resident orders, used to bound the matching loop. -/
def numOrders (B : OrderBook) : Nat :=
  (B.bids.map (fun e => e.2.length)).sum +
    (B.asks.map (fun e => e.2.length)).sum

/-- Number of price levels, used to bound the matching loop. -/
def numLevels (B : OrderBook) : Nat := B.bids.length + B.asks.length

/-- The outer loop of `OrderBook::match`, fuelled: each genuine iteration of
the source's `while` loop strictly decreases `numOrders + numLevels`, so
running with that much fuel reproduces the loop exactly (see
`matchFuel_enough`-style arguments below). -/
def matchLoop : Nat → OrderBook → OrderBook × List Trade
  | 0, B => (B, [])
  | fuel + 1, B =>
    match B.bids, B.asks with
    | [], _ => (B, [])
    | _ :: _, [] => (B, [])
    | (pb, qb) :: restB, (pa, qa) :: restA =>
      if pb < pa then (B, [])
      else
        let r := innerPass pa qb qa
        let bids' := if r.1.isEmpty then restB else (pb, r.1) :: restB
        let asks' := if r.2.1.isEmpty then restA else (pa, r.2.1) :: restA
        let B' : OrderBook := ⟨bids', asks', stripRemoved B.orderMap r.2.2.2⟩
        let rec' := matchLoop fuel B'
        (rec'.1, r.2.2.1 ++ rec'.2)

/-- Fuel certainly covering every iteration of the source's loop. -/
def matchFuel (B : OrderBook) : Nat := numOrders B + numLevels B

/-- `OrderBook::match()`: drain crossed levels, returning the mutated book
and the emitted trade reports. -/
def OrderBook.matchOrders (B : OrderBook) : OrderBook × List Trade :=
  matchLoop (matchFuel B) B

/-- The empty book. -/
def emptyBook : OrderBook := ⟨[], [], []⟩

/-- Best bid price: key of the first bids level (bids are descending). -/
def bestBidPrice (B : OrderBook) : Option Price := B.bids.head?.map (·.1)

/-- Best ask price: key of the first asks level (asks are ascending). -/
def bestAskPrice (B : OrderBook) : Option Price := B.asks.head?.map (·.1)

/-- An order with this identifier rests in a level keyed `p` of the given
index. -/
def restingIn (ls : PriceLevels) (p : Price) (id : OrderID) : Prop :=
  ∃ lvl, (p, lvl) ∈ ls ∧ ∃ x ∈ lvl, x.orderID = id

/-- An order with this identifier rests in a bid level keyed `p`. -/
def bidRestingAt (B : OrderBook) (p : Price) (id : OrderID) : Prop :=
  restingIn B.bids p id

/-- An order with this identifier rests in an ask level keyed `p`. -/
def askRestingAt (B : OrderBook) (p : Price) (id : OrderID) : Prop :=
  restingIn B.asks p id

/-- No crossed top of book: a side is empty or best bid < best ask. -/
def noCross (B : OrderBook) : Prop :=
  bestBidPrice B = none ∨ bestAskPrice B = none ∨
    ∃ pb pa, bestBidPrice B = some pb ∧ bestAskPrice B = some pa ∧ pb < pa

/-- Total quantity resting in one price level's queue. -/
def levelQty (l : Orders) : Nat := (l.map (·.quantity)).sum

/-- Total resident quantity of one side's index. -/
def totalQty (ls : PriceLevels) : Nat := (ls.map (fun e => levelQty e.2)).sum

/-- Sum of matched quantities over a trade report list. -/
def tradesQty (ts : List Trade) : Nat := (ts.map (·.quantity)).sum

/-- Every resident order has strictly positive quantity (the data-model
invariant "quantity strictly positive while resident"). -/
def allResidentPos (B : OrderBook) : Prop :=
  (∀ e ∈ B.bids, ∀ x ∈ e.2, 0 < x.quantity) ∧
    (∀ e ∈ B.asks, ∀ x ∈ e.2, 0 < x.quantity)

/-! ### The concrete scenario of `main()` (`orderbook.cpp`, lines 578-638) -/

/-- Buy order 1: price 101.0, quantity 100. -/
def order1 : Order := ⟨1, 101, 100, .Buy, "AAPL"⟩

/-- Buy order 2: price 100.0, quantity 50. -/
def order2 : Order := ⟨2, 100, 50, .Buy, "AAPL"⟩

/-- Sell order 3: price 99.0, quantity 70. -/
def order3 : Order := ⟨3, 99, 70, .Sell, "AAPL"⟩

/-- Sell order 4: price 102.0, quantity 30. -/
def order4 : Order := ⟨4, 102, 30, .Sell, "AAPL"⟩

/-- Sell order 5: price 101.0, quantity 20. -/
def order5 : Order := ⟨5, 101, 20, .Sell, "AAPL"⟩

/-- The operation sequence of `main()`: five inserts, cancel of order 2,
quantity-only modify of order 1 to 80, then `match()`. -/
def scenarioResult : Except Err (OrderBook × List Trade) := do
  let b1 ← emptyBook.insert order1
  let b2 ← b1.insert order2
  let b3 ← b2.insert order3
  let b4 ← b3.insert order4
  let b5 ← b4.insert order5
  let b6 ← b5.cancel order2
  let b7 ← b6.modify { order1 with quantity := 80 }
  pure b7.matchOrders

/-! ### A scenario with two orders on each side of one crossed level pair -/

/-- First bid at 101 (arrives before `fifoBid2`). -/
def fifoBid1 : Order := ⟨1, 101, 100, .Buy, "AAPL"⟩

/-- Second bid at 101 (arrives after `fifoBid1`, same price). -/
def fifoBid2 : Order := ⟨2, 101, 50, .Buy, "AAPL"⟩

/-- First ask at 99. -/
def fifoAsk3 : Order := ⟨3, 99, 30, .Sell, "AAPL"⟩

/-- Second ask at 99. -/
def fifoAsk4 : Order := ⟨4, 99, 50, .Sell, "AAPL"⟩

/-- Insert the four orders in arrival order, then `match()`. -/
def fifoCexResult : Except Err (OrderBook × List Trade) := do
  let b1 ← emptyBook.insert fifoBid1
  let b2 ← b1.insert fifoBid2
  let b3 ← b2.insert fifoAsk3
  let b4 ← b3.insert fifoAsk4
  pure b4.matchOrders

/-- A small crossed book used to witness the matching theorems: one bid
(id 1, qty 5 at 101) against one ask (id 2, qty 3 at 100). -/
def witnessBook : OrderBook :=
  ⟨[(101, [⟨1, 101, 5, .Buy, "A"⟩])], [(100, [⟨2, 100, 3, .Sell, "A"⟩])],
    [(1, Side.Buy, 101), (2, Side.Sell, 100)]⟩

/-- Replace one side's price-level index wholesale (proof convenience for
describing the results of `cancel`). -/
def setSide (B : OrderBook) (s : Side) (ls : PriceLevels) : OrderBook :=
  match s with
  | .Buy => { B with bids := ls }
  | .Sell => { B with asks := ls }

/-- The key comparator used by the side's `std::map`. -/
def sideBefore (s : Side) : Price → Price → Bool :=
  match s with
  | .Buy => bidBefore
  | .Sell => askBefore

/-! ### Book wellformedness predicates -/

/-- No order with the given identifier is resident on this side. -/
def notResidentSide (ls : PriceLevels) (id : OrderID) : Prop :=
  ∀ e ∈ ls, ∀ x ∈ e.2, x.orderID ≠ id

/-- No order with the given identifier is resident anywhere in the book. -/
def notResident (B : OrderBook) (id : OrderID) : Prop :=
  notResidentSide B.bids id ∧ notResidentSide B.asks id

/-- No price level of the book is retained empty. -/
def noEmptyLevels (B : OrderBook) : Prop :=
  (∀ e ∈ B.bids, e.2 ≠ []) ∧ (∀ e ∈ B.asks, e.2 ≠ [])

/-- The price levels are in strict comparator order, as `std::map`
guarantees: bids descending, asks ascending. -/
def wellSorted (B : OrderBook) : Prop :=
  B.bids.Pairwise (fun e f => bidBefore e.1 f.1 = true) ∧
    B.asks.Pairwise (fun e f => askBefore e.1 f.1 = true)

end OrderBookSpec

namespace MultimapVariant

/-!
The multimap variant (`orderbook_multimap.cpp`): bids and asks are
`std::multimap<double, order>` (ascending by key; `bids.rbegin()` is the
best bid, `asks.begin()` the best ask), embedded as ascending association
lists.  Only the aggressive `match(order&)` machinery is embedded here; the
`orderMap` member is omitted because `match(order&)` (via `execute` and
`cleanup`) never reads or writes it.
-/

/-- `struct order` of `orderbook_multimap.cpp`. -/
structure order where
  id : Int
  quantity : Nat
  price : Rat
  symbol : String
  side : OrderBookSpec.Side
deriving DecidableEq, Repr

/-- `std::multimap<double, order>` as an ascending association list. -/
abbrev PriceLevel := List (Rat × order)

/-- The bids/asks members of `class orderbook` (the `orderMap` member is
untouched by the aggressive match and omitted). -/
structure orderbook where
  bids : PriceLevel
  asks : PriceLevel
deriving DecidableEq, Repr

/-- The `ord.side == Side::Buy` branch of `orderbook::match(order&)`:
while the incoming quantity is positive, take `asks.begin()` (return if the
multimap is empty), `execute` against it (subtract the min of the two
quantities from both) and `cleanup` the resting order: if its quantity
reached zero it is erased — from the container selected by the RESTING
order's side.  For a well-formed book every ask is a Sell order and the
erase hits `asks`; were a resting ask marked Buy, the source would erase a
foreign iterator from `bids` (undefined behaviour) and then spin forever on
the unchanged best ask — that branch is modelled as halting with the book
as is.  In the no-erase branch the resting quantity exceeded the incoming
one, so the incoming order is filled (`q - m = 0`) and the re-checked loop
condition exits. -/
def matchBuyLoop (bids : PriceLevel) : PriceLevel → Nat →
    PriceLevel × PriceLevel × Nat
  | asks, q =>
    if q = 0 then (bids, asks, q)
    else
      match asks with
      | [] => (bids, [], q)
      | (pa, a) :: rest =>
        let m := min q a.quantity
        let a' : order := { a with quantity := a.quantity - m }
        if a'.quantity = 0 then
          match a.side with
          | .Sell => matchBuyLoop bids rest (q - m)
          | .Buy => (bids, (pa, a') :: rest, q - m)
        else
          (bids, (pa, a') :: rest, q - m)

/-- The `Side::Sell` branch of `orderbook::match(order&)`: symmetric, but
the best resting order is `bids.rbegin()`, i.e. the LAST entry of the
ascending bids multimap. -/
def matchSellLoop (asks : PriceLevel) (bids : PriceLevel) (q : Nat) :
    PriceLevel × PriceLevel × Nat :=
  if q = 0 then (bids, asks, q)
  else
    match h : bids.getLast? with
    | none => ([], asks, q)
    | some (pb, b) =>
      let m := min q b.quantity
      let b' : order := { b with quantity := b.quantity - m }
      if b'.quantity = 0 then
        match b.side with
        | .Buy => matchSellLoop asks bids.dropLast (q - m)
        | .Sell => (bids.dropLast ++ [(pb, b')], asks, q - m)
      else
        (bids.dropLast ++ [(pb, b')], asks, q - m)
termination_by bids.length
decreasing_by
  have hne : bids ≠ [] := by
    intro hnil
    rw [hnil] at h
    simp at h
  rw [List.length_dropLast]
  have := List.length_pos.mpr hne
  omega

/-- `orderbook::match(order&)`: dispatch on the incoming side; the book is
mutated in place and the incoming order's remaining quantity is left in
`ord.quantity` — returned here alongside the book. -/
def matchAggressive (B : orderbook) (ord : order) : orderbook × Nat :=
  match ord.side with
  | .Buy =>
    let r := matchBuyLoop B.bids B.asks ord.quantity
    (⟨r.1, r.2.1⟩, r.2.2)
  | .Sell =>
    let r := matchSellLoop B.asks B.bids ord.quantity
    (⟨r.1, r.2.1⟩, r.2.2)

/-- The side opposite the incoming order's, as a price-level list. -/
def oppositeLevels (B : orderbook) (s : OrderBookSpec.Side) : PriceLevel :=
  match s with
  | .Buy => B.asks
  | .Sell => B.bids

/-- Well-formed sides: every resting bid is a Buy, every resting ask a
Sell — guaranteed by `orderbook::insert`. -/
def sidesOK (B : orderbook) : Prop :=
  (∀ e ∈ B.bids, e.2.side = OrderBookSpec.Side.Buy) ∧
    (∀ e ∈ B.asks, e.2.side = OrderBookSpec.Side.Sell)

/-- No resident order carries this identifier. -/
def idFree (B : orderbook) (id : Int) : Prop :=
  (∀ e ∈ B.bids, e.2.id ≠ id) ∧ (∀ e ∈ B.asks, e.2.id ≠ id)

end MultimapVariant

namespace OrderBookSpec

/-! ## Theorems -/

/-! ### Association-list lemmas for the price-level indexes -/

theorem getLevel_cons (q : Price) (m : Orders) (rest : PriceLevels)
    (p : Price) :
    getLevel ((q, m) :: rest) p = if q = p then some m else getLevel rest p := by
  by_cases h : q = p <;> simp [getLevel, List.find?_cons, h]

theorem getLevel_mem {ls : PriceLevels} {p : Price} {l : Orders}
    (h : getLevel ls p = some l) : (p, l) ∈ ls := by
  unfold getLevel at h
  cases hf : ls.find? (fun e => decide (e.1 = p)) with
  | none => rw [hf] at h; simp at h
  | some e =>
    rw [hf] at h
    have he : e.1 = p := by simpa using List.find?_some hf
    have hm := List.mem_of_find?_eq_some hf
    obtain ⟨e1, e2⟩ := e
    simp only [Option.map_some'] at h
    obtain rfl : e2 = l := by simpa using h
    subst he
    exact hm

theorem getLevel_insertSide_absent (before : Price → Price → Bool)
    (o : Order) (ls : PriceLevels) (h : getLevel ls o.price = none) :
    getLevel (insertSide before o ls) o.price = some [o] := by
  induction ls with
  | nil => simp [insertSide, getLevel_cons]
  | cons e rest ih =>
    obtain ⟨q, m⟩ := e
    rw [getLevel_cons] at h
    by_cases hq : q = o.price
    · simp [hq] at h
    · rw [if_neg hq] at h
      have hq' : ¬ o.price = q := fun hh => hq hh.symm
      unfold insertSide
      rw [if_neg hq']
      by_cases hb : before o.price q
      · simp [hb, getLevel_cons]
      · simp [hb, getLevel_cons, hq, ih h]

theorem eraseSet_insertSide_absent (before : Price → Price → Bool)
    (o : Order) (ls : PriceLevels) (h : getLevel ls o.price = none) :
    eraseLevel o.price (setLevel o.price [] (insertSide before o ls)) = ls := by
  induction ls with
  | nil => simp [insertSide, setLevel, eraseLevel]
  | cons e rest ih =>
    obtain ⟨q, m⟩ := e
    rw [getLevel_cons] at h
    by_cases hq : q = o.price
    · simp [hq] at h
    · rw [if_neg hq] at h
      have hq' : ¬ o.price = q := fun hh => hq hh.symm
      unfold insertSide
      rw [if_neg hq']
      by_cases hb : before o.price q
      · rw [if_pos hb]
        simp [setLevel, eraseLevel, hq]
      · rw [if_neg hb]
        simp [setLevel, eraseLevel, hq, List.eraseP_cons]
        exact ih h

theorem getLevel_insertSide_present (before : Price → Price → Bool)
    (o : Order) (ls : PriceLevels) (l : Orders)
    (hasym : ∀ a b, before a b = true → before b a = true → False)
    (hsort : ls.Pairwise (fun e f => before e.1 f.1 = true))
    (h : getLevel ls o.price = some l) :
    getLevel (insertSide before o ls) o.price = some (l ++ [o]) := by
  induction ls with
  | nil => simp [getLevel] at h
  | cons e rest ih =>
    obtain ⟨q, m⟩ := e
    rw [getLevel_cons] at h
    rw [List.pairwise_cons] at hsort
    by_cases hq : q = o.price
    · rw [if_pos hq] at h
      obtain rfl : m = l := by simpa using h
      unfold insertSide
      rw [if_pos hq.symm]
      simp [getLevel_cons, hq]
    · rw [if_neg hq] at h
      have hq' : ¬ o.price = q := fun hh => hq hh.symm
      unfold insertSide
      rw [if_neg hq']
      by_cases hb : before o.price q
      · exact absurd hb (fun hb' =>
          hasym _ _ (hsort.1 _ (getLevel_mem h)) hb')
      · simp [hb, getLevel_cons, hq, ih hsort.2 h]

theorem setLevel_insertSide_present (before : Price → Price → Bool)
    (o : Order) (ls : PriceLevels) (l : Orders)
    (hasym : ∀ a b, before a b = true → before b a = true → False)
    (hsort : ls.Pairwise (fun e f => before e.1 f.1 = true))
    (h : getLevel ls o.price = some l) :
    setLevel o.price l (insertSide before o ls) = ls := by
  induction ls with
  | nil => simp [getLevel] at h
  | cons e rest ih =>
    obtain ⟨q, m⟩ := e
    rw [getLevel_cons] at h
    rw [List.pairwise_cons] at hsort
    by_cases hq : q = o.price
    · rw [if_pos hq] at h
      obtain rfl : m = l := by simpa using h
      unfold insertSide
      rw [if_pos hq.symm]
      simp [setLevel, hq]
    · rw [if_neg hq] at h
      have hq' : ¬ o.price = q := fun hh => hq hh.symm
      unfold insertSide
      rw [if_neg hq']
      by_cases hb : before o.price q
      · exact absurd hb (fun hb' =>
          hasym _ _ (hsort.1 _ (getLevel_mem h)) hb')
      · simp [hb, setLevel, hq, ih hsort.2 h]

theorem bidBefore_asymm :
    ∀ a b, bidBefore a b = true → bidBefore b a = true → False := by
  intro a b h1 h2
  simp [bidBefore] at h1 h2
  exact absurd (h1.trans h2) (lt_irrefl _)

theorem askBefore_asymm :
    ∀ a b, askBefore a b = true → askBefore b a = true → False := by
  intro a b h1 h2
  simp [askBefore] at h1 h2
  exact absurd (h1.trans h2) (lt_irrefl _)

theorem lookupLoc_eq_none_iff {m : OrderMap} {id : OrderID} :
    lookupLoc m id = none ↔ ∀ e ∈ m, e.1 ≠ id := by
  unfold lookupLoc
  rw [Option.map_eq_none', List.find?_eq_none]
  simp

theorem lookupLoc_append {m : OrderMap} {id : OrderID} {s : Side} {p : Price}
    (h : lookupLoc m id = none) :
    lookupLoc (m ++ [(id, s, p)]) id = some (s, p) := by
  unfold lookupLoc at h ⊢
  rw [List.find?_append]
  rw [Option.map_eq_none'] at h
  rw [h]
  simp [List.find?_cons]

theorem eraseLoc_append_self {m : OrderMap} {id : OrderID} {s : Side}
    {p : Price} (h : lookupLoc m id = none) :
    eraseLoc (m ++ [(id, s, p)]) id = m := by
  have h' := lookupLoc_eq_none_iff.mp h
  unfold eraseLoc
  rw [List.filter_append]
  have : m.filter (fun e => decide (e.1 ≠ id)) = m :=
    List.filter_eq_self.mpr (fun e he => by simpa using h' e he)
  rw [this]
  simp

/-- Inserting a fresh order and then removing it restores one side's
price-level index: the lemma mirrors the level work done by `cancel` right
after an `insert` on the same side. -/
theorem insert_cancelSide_roundTrip (before : Price → Price → Bool)
    (o : Order) (ls : PriceLevels)
    (hres : ∀ e ∈ ls, ∀ x ∈ e.2, x.orderID ≠ o.orderID)
    (hne : ∀ e ∈ ls, e.2 ≠ [])
    (hasym : ∀ a b, before a b = true → before b a = true → False)
    (hsort : ls.Pairwise (fun e f => before e.1 f.1 = true)) :
    ∃ lvl, getLevel (insertSide before o ls) o.price = some lvl ∧
      (((removeOrderFromLevel o.orderID lvl).isEmpty = true ∧
        eraseLevel o.price (setLevel o.price
          (removeOrderFromLevel o.orderID lvl) (insertSide before o ls)) = ls) ∨
       ((removeOrderFromLevel o.orderID lvl).isEmpty = false ∧
        setLevel o.price (removeOrderFromLevel o.orderID lvl)
          (insertSide before o ls) = ls)) := by
  cases hgl : getLevel ls o.price with
  | none =>
    refine ⟨[o], getLevel_insertSide_absent before o ls hgl, .inl ⟨?_, ?_⟩⟩
    · simp [removeOrderFromLevel]
    · have : removeOrderFromLevel o.orderID [o] = [] := by
        simp [removeOrderFromLevel]
      rw [this]
      exact eraseSet_insertSide_absent before o ls hgl
  | some l =>
    have hmem := getLevel_mem hgl
    have hrm : removeOrderFromLevel o.orderID (l ++ [o]) = l := by
      unfold removeOrderFromLevel
      rw [List.eraseP_append_right]
      · simp
      · intro x hx
        simpa using hres _ hmem x hx
    refine ⟨l ++ [o],
      getLevel_insertSide_present before o ls l hasym hsort hgl, .inr ⟨?_, ?_⟩⟩
    · rw [hrm]
      simpa using hne _ hmem
    · rw [hrm]
      exact setLevel_insertSide_present before o ls l hasym hsort hgl

/-- **C6.** For every book state `B` and every order `o` whose identifier is
not resident in `B`, performing `insert(o)` and then `cancel(o)` yields a
book state equal to `B`: identical bid and ask price-level indexes and no
residual order-location entry for `o`.  Hypotheses: the identifier is absent
from the location index, no order with it is resident, no price level is
retained empty, and the two indexes are in comparator order — all invariants
of reachable books. -/
theorem claimC6 (B : OrderBook) (o : Order)
    (h1 : lookupLoc B.orderMap o.orderID = none)
    (h2 : notResident B o.orderID)
    (h3 : noEmptyLevels B)
    (h4 : wellSorted B) :
    (B.insert o).bind (fun B1 => B1.cancel o) = .ok B := by
  cases B with
  | mk bids asks orderMap =>
  cases hside : o.side with
  | Buy =>
    obtain ⟨lvl, hlvl, hcases⟩ :=
      insert_cancelSide_roundTrip bidBefore o bids h2.1 h3.1
        bidBefore_asymm h4.1
    simp only [OrderBook.insert, h1, Option.isSome_none, Bool.false_eq_true,
      if_false, hside, Except.bind]
    unfold OrderBook.cancel
    simp only [lookupLoc_append h1, sideLevels, hlvl, hside]
    rcases hcases with ⟨hemp, heq⟩ | ⟨hemp, heq⟩
    · simp only [hemp, if_true, heq, eraseLoc_append_self h1]
    · simp only [hemp, Bool.false_eq_true, if_false, heq,
        eraseLoc_append_self h1]
  | Sell =>
    obtain ⟨lvl, hlvl, hcases⟩ :=
      insert_cancelSide_roundTrip askBefore o asks h2.2 h3.2
        askBefore_asymm h4.2
    simp only [OrderBook.insert, h1, Option.isSome_none, Bool.false_eq_true,
      if_false, hside, Except.bind]
    unfold OrderBook.cancel
    simp only [lookupLoc_append h1, sideLevels, hlvl, hside]
    rcases hcases with ⟨hemp, heq⟩ | ⟨hemp, heq⟩
    · simp only [hemp, if_true, heq, eraseLoc_append_self h1]
    · simp only [hemp, Bool.false_eq_true, if_false, heq,
        eraseLoc_append_self h1]

/-- Witness for C6: inserting id 9 into a one-level book and cancelling it
restores the book exactly. -/
theorem claimC6_witness :
    (OrderBook.insert ⟨[(100, [⟨7, 100, 5, .Buy, "AAPL"⟩])], [],
        [(7, Side.Buy, 100)]⟩ ⟨9, 101, 4, .Buy, "AAPL"⟩).bind
      (fun B1 => B1.cancel ⟨9, 101, 4, .Buy, "AAPL"⟩) =
    .ok ⟨[(100, [⟨7, 100, 5, .Buy, "AAPL"⟩])], [], [(7, Side.Buy, 100)]⟩ :=
  claimC6 ⟨[(100, [⟨7, 100, 5, .Buy, "AAPL"⟩])], [], [(7, Side.Buy, 100)]⟩
    ⟨9, 101, 4, .Buy, "AAPL"⟩ (by decide)
    (by constructor <;> intro e he x hx <;> simp_all [notResidentSide])
    (by constructor <;> intro e he <;> simp_all)
    (by constructor <;> simp)

/-- **C1.** For the operation sequence insert Buy(1, 101.0, 100), insert
Buy(2, 100.0, 50), insert Sell(3, 99.0, 70), insert Sell(4, 102.0, 30),
insert Sell(5, 101.0, 20), cancel(2), modify(1, qty 80, same price), then
match(): exactly two trades are emitted — (bid 1, ask 3, quantity 70, price
99.0) then (bid 1, ask 5, quantity 10, price 101.0) — and afterwards the bid
side is empty, the ask side holds exactly order 5 with quantity 10 at 101.0
and order 4 with quantity 30 at 102.0, and the order-location index holds
exactly ids 4 and 5. -/
theorem claimC1 :
    scenarioResult = .ok
      (⟨[],
        [(101, [⟨5, 101, 10, .Sell, "AAPL"⟩]),
         (102, [⟨4, 102, 30, .Sell, "AAPL"⟩])],
        [(4, Side.Sell, 102), (5, Side.Sell, 101)]⟩,
       [⟨1, 3, "AAPL", 99, 70⟩, ⟨1, 5, "AAPL", 101, 10⟩]) := by
  rfl

/-- **C2, counterexample.** Bids 1 (qty 100) then 2 (qty 50) rest at price
101 in arrival order; asks 3 (qty 30) then 4 (qty 50) rest at 99.  `match()`
emits (bid 1, ask 3, qty 30) and then (bid 2, ask 4, qty 50), while bid
order 1 — which arrived before order 2 at the same price — still has
remaining quantity 70 (it survives with quantity 70 in the final book, and
quantities never increase during a match call).  So a trade IS emitted for a
later-arrived order at a price while an earlier-arrived order at the same
price still has remaining quantity, refuting the claim: after a pairing the
source advances BOTH iterators (`cleanupAndIterate` is applied to the bid
and the ask iterator alike), so a partially filled order is skipped for the
remainder of the pass instead of staying at the current position. -/
theorem claimC2_counterexample :
    fifoCexResult = .ok
      (⟨[(101, [⟨1, 101, 70, .Buy, "AAPL"⟩])], [], [(1, Side.Buy, 101)]⟩,
       [⟨1, 3, "AAPL", 99, 30⟩, ⟨2, 4, "AAPL", 99, 50⟩]) := by
  rfl

/-- **C2, amended.** Within one pass over a crossed pair of price levels,
`match()` pairs the two FIFO queues positionally — the i-th bid order of the
level with the i-th ask order — trading `min` of their quantities at the ask
level's price.  After each pairing BOTH queues advance (fully filled orders
are erased, partially filled ones are skipped by `++orderIter`), so a
later-arrived order at the same price can trade while an earlier-arrived,
partially filled order still has remaining quantity.  Orders are consumed
front first in this positional sense; survivors keep their original relative
(FIFO storage) order: the surviving bid queue is the paired prefix, each
order reduced by its own pairing's quantity with the fully filled ones
dropped, followed by the unpaired suffix untouched — and symmetrically for
the ask queue. -/
theorem claimC2_amended (p : Price) (bs as : Orders) :
    (innerPass p bs as).2.2.1 =
      bs.zipWith (fun b a =>
        ⟨b.orderID, a.orderID, a.symbol, p, min b.quantity a.quantity⟩) as ∧
    (innerPass p bs as).1 =
      (bs.zipWith (fun b a =>
          { b with quantity := b.quantity - min b.quantity a.quantity }) as).filter
        (fun b => b.quantity != 0) ++ bs.drop as.length ∧
    (innerPass p bs as).2.1 =
      (as.zipWith (fun a b =>
          { a with quantity := a.quantity - min b.quantity a.quantity }) bs).filter
        (fun a => a.quantity != 0) ++ as.drop bs.length := by
  induction bs generalizing as with
  | nil => cases as <;> simp [innerPass]
  | cons b bs ih =>
    cases as with
    | nil => simp [innerPass]
    | cons a as =>
      obtain ⟨h1, h2, h3⟩ := ih as
      refine ⟨?_, ?_, ?_⟩ <;>
        simp only [innerPass, h1, h2, h3, List.zipWith_cons_cons,
          List.filter_cons, List.drop_succ_cons] <;>
        rcases Nat.eq_zero_or_pos (b.quantity - min b.quantity a.quantity)
          with hb | hb <;>
        rcases Nat.eq_zero_or_pos (a.quantity - min b.quantity a.quantity)
          with ha | ha <;>
        simp [hb, ha, Nat.pos_iff_ne_zero.mp, bne_iff_ne]

/-! ### Shape of `cancel` and `modify` results -/

theorem sideLevels_setSide_same (B : OrderBook) (s : Side) (ls : PriceLevels) :
    sideLevels (setSide B s ls) s = ls := by
  cases s <;> rfl

theorem orderMap_setSide (B : OrderBook) (s : Side) (ls : PriceLevels) :
    (setSide B s ls).orderMap = B.orderMap := by
  cases s <;> rfl

theorem setLevel_keys (p : Price) (l : Orders) (ls : PriceLevels) :
    (setLevel p l ls).map (·.1) = ls.map (·.1) := by
  induction ls with
  | nil => rfl
  | cons e rest ih =>
    obtain ⟨q, m⟩ := e
    by_cases hq : q = p <;> simp [setLevel, hq, ih]

theorem pairwise_keys_setLevel {before : Price → Price → Bool} {p : Price}
    {l : Orders} {ls : PriceLevels}
    (h : ls.Pairwise (fun e f => before e.1 f.1 = true)) :
    (setLevel p l ls).Pairwise (fun e f => before e.1 f.1 = true) := by
  have h' : (ls.map (·.1)).Pairwise (fun a b => before a b = true) :=
    List.pairwise_map.mpr h
  have h'' : ((setLevel p l ls).map (·.1)).Pairwise
      (fun a b => before a b = true) := by
    rw [setLevel_keys]; exact h'
  exact List.pairwise_map.mp h''

theorem pairwise_keys_eraseLevel {before : Price → Price → Bool} {p : Price}
    {ls : PriceLevels}
    (h : ls.Pairwise (fun e f => before e.1 f.1 = true)) :
    (eraseLevel p ls).Pairwise (fun e f => before e.1 f.1 = true) :=
  List.Pairwise.sublist (List.eraseP_sublist ls) h

/-- When the stored side agrees with the argument's side, `cancel` succeeds
and produces exactly this book. -/
theorem cancel_eq_sameSide (B : OrderBook) (o : Order) (sp : Price)
    (lvl : Orders)
    (hloc : lookupLoc B.orderMap o.orderID = some (o.side, sp))
    (hlvl : getLevel (sideLevels B o.side) sp = some lvl) :
    B.cancel o = .ok { setSide B o.side
      (if (removeOrderFromLevel o.orderID lvl).isEmpty then
        eraseLevel sp (setLevel sp (removeOrderFromLevel o.orderID lvl)
          (sideLevels B o.side))
      else
        setLevel sp (removeOrderFromLevel o.orderID lvl)
          (sideLevels B o.side)) with
      orderMap := eraseLoc B.orderMap o.orderID } := by
  unfold OrderBook.cancel
  rw [hloc]
  simp only [hlvl]
  cases hs : o.side <;>
    by_cases hemp : (removeOrderFromLevel o.orderID lvl).isEmpty <;>
    simp [hemp, setSide, sideLevels]

theorem lookupLoc_eraseLoc_self (m : OrderMap) (id : OrderID) :
    lookupLoc (eraseLoc m id) id = none := by
  refine lookupLoc_eq_none_iff.mpr (fun e he => ?_)
  unfold eraseLoc at he
  simpa using (List.mem_filter.mp he).2

theorem sideLevels_setSide_orderMap (B : OrderBook) (s : Side)
    (ls : PriceLevels) (m : OrderMap) :
    sideLevels { setSide B s ls with orderMap := m } s = ls := by
  cases s <;> rfl

theorem sideBefore_asymm (s : Side) :
    ∀ a b, sideBefore s a b = true → sideBefore s b a = true → False := by
  cases s
  · exact bidBefore_asymm
  · exact askBefore_asymm

/-- A successful `insert` appends the order at the back of its price level's
FIFO queue. -/
theorem insert_back (B : OrderBook) (o : Order)
    (hmap : lookupLoc B.orderMap o.orderID = none)
    (hsorted : (sideLevels B o.side).Pairwise
      (fun e f => sideBefore o.side e.1 f.1 = true))
    (B' : OrderBook) (h : B.insert o = .ok B') :
    ∃ lvl2, getLevel (sideLevels B' o.side) o.price = some lvl2 ∧
      lvl2.getLast? = some o := by
  unfold OrderBook.insert at h
  rw [hmap] at h
  simp only [Option.isSome_none, Bool.false_eq_true, if_false] at h
  cases hs : o.side <;> rw [hs] at h hsorted <;>
    simp only [sideLevels, sideBefore] at hsorted ⊢
  · obtain rfl : ({ B with
        bids := insertSide bidBefore o B.bids
        orderMap := B.orderMap ++ [(o.orderID, Side.Buy, o.price)] } :
          OrderBook) = B' := Except.ok.inj h
    cases hgl : getLevel B.bids o.price with
    | none =>
      exact ⟨[o], getLevel_insertSide_absent bidBefore o B.bids hgl, rfl⟩
    | some l2 =>
      exact ⟨l2 ++ [o],
        getLevel_insertSide_present bidBefore o B.bids l2 bidBefore_asymm
          hsorted hgl,
        List.getLast?_concat l2⟩
  · obtain rfl : ({ B with
        asks := insertSide askBefore o B.asks
        orderMap := B.orderMap ++ [(o.orderID, Side.Sell, o.price)] } :
          OrderBook) = B' := Except.ok.inj h
    cases hgl : getLevel B.asks o.price with
    | none =>
      exact ⟨[o], getLevel_insertSide_absent askBefore o B.asks hgl, rfl⟩
    | some l2 =>
      exact ⟨l2 ++ [o],
        getLevel_insertSide_present askBefore o B.asks l2 askBefore_asymm
          hsorted hgl,
        List.getLast?_concat l2⟩

/-- **C7.** For every book state and every resident order whose identifier,
side and symbol match the incoming order's, `modify` with a changed price
yields the same book state as `cancel` of that identifier followed by
`insert` of the new order, and the order ends at the back of the new price
level's FIFO queue carrying the new quantity (so its time priority is
forfeited).  The location hypotheses say the incoming id is resident at
stored location (`o.side`, `sp`) with resident record `r`. -/
theorem claimC7 (B : OrderBook) (o : Order) (sp : Price) (lvl : Orders)
    (r : Order)
    (hloc : lookupLoc B.orderMap o.orderID = some (o.side, sp))
    (hlvl : getLevel (sideLevels B o.side) sp = some lvl)
    (hr : lvl.find? (fun x => decide (x.orderID = o.orderID)) = some r)
    (hside : r.side = o.side) (hsym : r.symbol = o.symbol)
    (hpr : r.price ≠ o.price) (hsort : wellSorted B) :
    B.modify o = (B.cancel o).bind (fun B1 => B1.insert o) ∧
    ∀ B', B.modify o = .ok B' →
      ∃ lvl2, getLevel (sideLevels B' o.side) o.price = some lvl2 ∧
        lvl2.getLast? = some o := by
  have hrid : r.orderID = o.orderID := by
    simpa using List.find?_some hr
  have hmod : B.modify o = (B.cancel o).bind (fun B1 => B1.insert o) := by
    unfold OrderBook.modify
    rw [hloc]
    simp only [hlvl, hr]
    rw [if_neg (by simp [hrid, hside, hsym]), if_pos hpr]
  refine ⟨hmod, fun B' hB' => ?_⟩
  rw [hmod, cancel_eq_sameSide B o sp lvl hloc hlvl] at hB'
  simp only [Except.bind] at hB'
  refine insert_back _ o ?_ ?_ B' hB'
  · exact lookupLoc_eraseLoc_self B.orderMap o.orderID
  · rw [sideLevels_setSide_orderMap]
    have hbase : (sideLevels B o.side).Pairwise
        (fun e f => sideBefore o.side e.1 f.1 = true) := by
      cases o.side
      · exact hsort.1
      · exact hsort.2
    by_cases hemp : (removeOrderFromLevel o.orderID lvl).isEmpty <;>
      simp only [hemp, if_true, Bool.false_eq_true, if_false]
    · exact pairwise_keys_eraseLevel (pairwise_keys_setLevel hbase)
    · exact pairwise_keys_setLevel hbase

/-- Witness for C7: modifying resident order 7 (Buy at 100, qty 5) to price
101 and quantity 9 equals cancel-then-insert, and order 7 ends at the back
of the 101 level with quantity 9. -/
theorem claimC7_witness :
    (OrderBook.modify
        ⟨[(100, [⟨7, 100, 5, .Buy, "AAPL"⟩])], [], [(7, Side.Buy, 100)]⟩
        ⟨7, 101, 9, .Buy, "AAPL"⟩ =
      (OrderBook.cancel
          ⟨[(100, [⟨7, 100, 5, .Buy, "AAPL"⟩])], [], [(7, Side.Buy, 100)]⟩
          ⟨7, 101, 9, .Buy, "AAPL"⟩).bind
        (fun B1 => B1.insert ⟨7, 101, 9, .Buy, "AAPL"⟩)) ∧
    ∀ B', OrderBook.modify
        ⟨[(100, [⟨7, 100, 5, .Buy, "AAPL"⟩])], [], [(7, Side.Buy, 100)]⟩
        ⟨7, 101, 9, .Buy, "AAPL"⟩ = .ok B' →
      ∃ lvl2, getLevel (sideLevels B' Side.Buy) 101 = some lvl2 ∧
        lvl2.getLast? = some ⟨7, 101, 9, .Buy, "AAPL"⟩ :=
  claimC7 ⟨[(100, [⟨7, 100, 5, .Buy, "AAPL"⟩])], [], [(7, Side.Buy, 100)]⟩
    ⟨7, 101, 9, .Buy, "AAPL"⟩ 100 [⟨7, 100, 5, .Buy, "AAPL"⟩]
    ⟨7, 100, 5, .Buy, "AAPL"⟩ (by rfl) (by rfl) (by rfl) (by rfl) (by rfl)
    (by decide) (by constructor <;> simp)

/-- **C8.** For every book state and every `modify` call whose identifier is
resident but whose side or symbol differs from the resident order's,
`modify` fails with `OrderMismatch`; the exception is thrown before any
mutation, so the book is left unchanged (in this embedding an `error` result
carries no book mutation at all). -/
theorem claimC8 (B : OrderBook) (o : Order) (s : Side) (sp : Price)
    (lvl : Orders) (r : Order)
    (hloc : lookupLoc B.orderMap o.orderID = some (s, sp))
    (hlvl : getLevel (sideLevels B s) sp = some lvl)
    (hr : lvl.find? (fun x => decide (x.orderID = o.orderID)) = some r)
    (hmis : r.side ≠ o.side ∨ r.symbol ≠ o.symbol) :
    B.modify o = .error .orderMismatch := by
  unfold OrderBook.modify
  rw [hloc]
  simp only [hlvl, hr]
  rw [if_pos ?_]
  rcases hmis with h | h
  · exact .inr (.inl h)
  · exact .inr (.inr h)

/-! ### Cancel's side selection for the empty-level erase (C10) -/

theorem eraseLevel_setLevel (p : Price) (l : Orders) (ls : PriceLevels) :
    eraseLevel p (setLevel p l ls) = eraseLevel p ls := by
  induction ls with
  | nil => rfl
  | cons e rest ih =>
    obtain ⟨q, m⟩ := e
    by_cases hq : q = p
    · simp [setLevel, eraseLevel, hq]
    · simp only [setLevel, if_neg hq]
      unfold eraseLevel at ih ⊢
      simp [List.eraseP_cons, hq, ih]

theorem mem_setLevel {e : Price × Orders} {p : Price} {l : Orders}
    {ls : PriceLevels} (h : e ∈ setLevel p l ls) : e ∈ ls ∨ e = (p, l) := by
  induction ls with
  | nil => simp [setLevel] at h
  | cons f rest ih =>
    obtain ⟨q, m⟩ := f
    by_cases hq : q = p
    · simp only [setLevel, if_pos hq, List.mem_cons] at h
      rcases h with h | h
      · exact .inr h
      · exact .inl (List.mem_cons_of_mem _ h)
    · simp only [setLevel, if_neg hq, List.mem_cons] at h
      rcases h with h | h
      · exact .inl (h ▸ List.mem_cons_self _ _)
      · rcases ih h with h' | h'
        · exact .inl (List.mem_cons_of_mem _ h')
        · exact .inr h'

theorem setLevel_mem_self {p : Price} {ls : PriceLevels} {m : Orders}
    (l : Orders) (h : getLevel ls p = some m) : (p, l) ∈ setLevel p l ls := by
  induction ls with
  | nil => simp [getLevel] at h
  | cons f rest ih =>
    obtain ⟨q, mm⟩ := f
    by_cases hq : q = p
    · simp [setLevel, hq]
    · rw [getLevel_cons, if_neg hq] at h
      simp only [setLevel, if_neg hq]
      exact List.mem_cons_of_mem _ (ih h)

theorem sideLevels_setSide_other (B : OrderBook) {s s' : Side}
    (h : s ≠ s') (ls : PriceLevels) :
    sideLevels (setSide B s ls) s' = sideLevels B s' := by
  cases s <;> cases s' <;> simp_all [setSide, sideLevels]

/-- When the argument's side disagrees with the stored side and the removal
empties the level, `cancel` writes the emptied queue back into the true
side's index and erases the same-keyed level from the wrongly selected
index. -/
theorem cancel_eq_diffSide (B : OrderBook) (o : Order) (s : Side)
    (sp : Price) (lvl : Orders)
    (hloc : lookupLoc B.orderMap o.orderID = some (s, sp))
    (hlvl : getLevel (sideLevels B s) sp = some lvl)
    (hs : o.side ≠ s)
    (hemp : (removeOrderFromLevel o.orderID lvl).isEmpty = true) :
    B.cancel o = .ok { setSide
      (setSide B s (setLevel sp (removeOrderFromLevel o.orderID lvl)
        (sideLevels B s)))
      o.side (eraseLevel sp (sideLevels B o.side)) with
      orderMap := eraseLoc B.orderMap o.orderID } := by
  unfold OrderBook.cancel
  rw [hloc]
  simp only [hlvl, hemp, if_true]
  cases hsides : s <;> cases hside : o.side
  · exact absurd (hside.trans hsides.symm) hs
  · simp [setSide, sideLevels]
  · simp [setSide, sideLevels]
  · exact absurd (hside.trans hsides.symm) hs

/-- **C10.** `cancel` takes the full order record; the order node is removed
through the stored location, but when the removal empties the price level,
the side index the level is erased from is selected by the CALLER-supplied
`order.side` rather than the stored location.  Hence (1) when the argument's
side equals the stored side, cancel preserves the no-empty-price-level
invariant, while (2) when the sides disagree and the removal empties the
level, the emptied level stays resident (empty) in the true side's index —
the erase went to the wrong index. -/
theorem claimC10 (B : OrderBook) (o : Order) (s : Side) (sp : Price)
    (lvl : Orders)
    (hloc : lookupLoc B.orderMap o.orderID = some (s, sp))
    (hlvl : getLevel (sideLevels B s) sp = some lvl) :
    (o.side = s → noEmptyLevels B →
      ∀ B', B.cancel o = .ok B' → noEmptyLevels B') ∧
    (o.side ≠ s → removeOrderFromLevel o.orderID lvl = [] →
      ∀ B', B.cancel o = .ok B' → (sp, []) ∈ sideLevels B' s) := by
  constructor
  · intro hs hne B' hB'
    subst hs
    rw [cancel_eq_sameSide B o sp lvl hloc hlvl] at hB'
    obtain rfl := (Except.ok.inj hB')
    have hSideOk : ∀ e ∈ (if (removeOrderFromLevel o.orderID lvl).isEmpty then
        eraseLevel sp (setLevel sp (removeOrderFromLevel o.orderID lvl)
          (sideLevels B o.side))
      else
        setLevel sp (removeOrderFromLevel o.orderID lvl)
          (sideLevels B o.side)), e.2 ≠ [] := by
      have hbase : ∀ e ∈ sideLevels B o.side, e.2 ≠ [] := by
        cases ho : o.side
        · exact hne.1
        · exact hne.2
      by_cases hemp : (removeOrderFromLevel o.orderID lvl).isEmpty
      · simp only [hemp, if_true, eraseLevel_setLevel]
        intro e he
        exact hbase e ((List.eraseP_sublist _).subset he)
      · simp only [hemp, Bool.false_eq_true, if_false]
        intro e he
        rcases mem_setLevel he with h' | h'
        · exact hbase e h'
        · subst h'
          simpa [List.isEmpty_iff] using hemp
    constructor
    · intro e he
      cases ho : o.side <;> rw [ho] at hSideOk <;>
        simp only [setSide, ho] at he
      · exact hSideOk e he
      · exact hne.1 e he
    · intro e he
      cases ho : o.side <;> rw [ho] at hSideOk <;>
        simp only [setSide, ho] at he
      · exact hne.2 e he
      · exact hSideOk e he
  · intro hs hemp B' hB'
    rw [cancel_eq_diffSide B o s sp lvl hloc hlvl hs
      (by simp [hemp])] at hB'
    obtain rfl := (Except.ok.inj hB')
    have h1 : sideLevels ({ setSide
        (setSide B s (setLevel sp (removeOrderFromLevel o.orderID lvl)
          (sideLevels B s)))
        o.side (eraseLevel sp (sideLevels B o.side)) with
        orderMap := eraseLoc B.orderMap o.orderID } : OrderBook) s =
        setLevel sp (removeOrderFromLevel o.orderID lvl) (sideLevels B s) := by
      have h2 : ∀ (B0 : OrderBook) (m : OrderMap),
          sideLevels { B0 with orderMap := m } s = sideLevels B0 s := by
        intro B0 m; cases s <;> rfl
      rw [h2, sideLevels_setSide_other _ hs, sideLevels_setSide_same]
    rw [h1, hemp]
    exact setLevel_mem_self [] hlvl

/-- Witness for C10: in a book whose only order is Sell id 7 at price 5,
a correct-side cancel leaves no empty level, while a cancel carrying side
Buy for the same id leaves the emptied level (5, []) resident in the ask
index. -/
theorem claimC10_witness :
    noEmptyLevels (⟨[], [], []⟩ : OrderBook) ∧
    (5, []) ∈ sideLevels (⟨[], [(5, [])], []⟩ : OrderBook) Side.Sell := by
  constructor
  · exact (claimC10 ⟨[], [(5, [⟨7, 5, 3, .Sell, "X"⟩])], [(7, Side.Sell, 5)]⟩
      ⟨7, 5, 3, .Sell, "X"⟩ Side.Sell 5 [⟨7, 5, 3, .Sell, "X"⟩]
      (by rfl) (by rfl)).1 rfl
      (by constructor <;> intro e he <;> simp_all) ⟨[], [], []⟩ (by rfl)
  · exact (claimC10 ⟨[], [(5, [⟨7, 5, 3, .Sell, "X"⟩])], [(7, Side.Sell, 5)]⟩
      ⟨7, 5, 3, .Buy, "X"⟩ Side.Sell 5 [⟨7, 5, 3, .Sell, "X"⟩]
      (by rfl) (by rfl)).2 (by decide) (by rfl) ⟨[], [(5, [])], []⟩ (by rfl)

/-- Witness for C8: modifying resident Buy order 7 with a Sell-side record
of the same id signals `OrderMismatch`. -/
theorem claimC8_witness :
    OrderBook.modify
      ⟨[(100, [⟨7, 100, 5, .Buy, "AAPL"⟩])], [], [(7, Side.Buy, 100)]⟩
      ⟨7, 100, 9, .Sell, "AAPL"⟩ = .error .orderMismatch :=
  claimC8 ⟨[(100, [⟨7, 100, 5, .Buy, "AAPL"⟩])], [], [(7, Side.Buy, 100)]⟩
    ⟨7, 100, 9, .Sell, "AAPL"⟩ Side.Buy 100 [⟨7, 100, 5, .Buy, "AAPL"⟩]
    ⟨7, 100, 5, .Buy, "AAPL"⟩ (by rfl) (by rfl) (by rfl) (.inl (by decide))

/-! ### Inner-pass lemmas for the matching loop -/

theorem innerPass_nil_left (p : Price) (as : Orders) :
    innerPass p [] as = ([], as, [], []) := by
  cases as <;> rfl

theorem innerPass_nil_right (p : Price) (bs : Orders) :
    innerPass p bs [] = (bs, [], [], []) := by
  cases bs <;> rfl

theorem innerPass_qty_bid (p : Price) (bs as : Orders) :
    tradesQty (innerPass p bs as).2.2.1 + levelQty (innerPass p bs as).1 =
      levelQty bs := by
  induction bs generalizing as with
  | nil => simp [innerPass_nil_left, tradesQty, levelQty]
  | cons b bs ih =>
    cases as with
    | nil => simp [innerPass_nil_right, tradesQty, levelQty]
    | cons a as =>
      have hm : min b.quantity a.quantity ≤ b.quantity := Nat.min_le_left _ _
      have := ih as
      simp only [innerPass, tradesQty, levelQty, List.map_cons, List.sum_cons]
        at this ⊢
      by_cases hb : b.quantity - min b.quantity a.quantity = 0 <;>
        simp only [hb, if_true, Bool.false_eq_true, if_false, List.map_cons,
          List.sum_cons] <;>
        omega

theorem innerPass_qty_ask (p : Price) (bs as : Orders) :
    tradesQty (innerPass p bs as).2.2.1 + levelQty (innerPass p bs as).2.1 =
      levelQty as := by
  induction bs generalizing as with
  | nil => simp [innerPass_nil_left, tradesQty, levelQty]
  | cons b bs ih =>
    cases as with
    | nil => simp [innerPass_nil_right, tradesQty, levelQty]
    | cons a as =>
      have hm : min b.quantity a.quantity ≤ a.quantity := Nat.min_le_right _ _
      have := ih as
      simp only [innerPass, tradesQty, levelQty, List.map_cons, List.sum_cons]
        at this ⊢
      by_cases ha : a.quantity - min b.quantity a.quantity = 0 <;>
        simp only [ha, if_true, Bool.false_eq_true, if_false, List.map_cons,
          List.sum_cons] <;>
        omega

theorem innerPass_pos (p : Price) (bs as : Orders)
    (hb : ∀ x ∈ bs, 0 < x.quantity) (ha : ∀ x ∈ as, 0 < x.quantity) :
    (∀ t ∈ (innerPass p bs as).2.2.1, 0 < t.quantity) ∧
    (∀ x ∈ (innerPass p bs as).1, 0 < x.quantity) ∧
    (∀ x ∈ (innerPass p bs as).2.1, 0 < x.quantity) := by
  induction bs generalizing as with
  | nil => simpa [innerPass_nil_left] using ha
  | cons b bs ih =>
    cases as with
    | nil =>
      simp only [innerPass_nil_right]
      exact ⟨by simp, hb, by simp⟩
    | cons a as =>
      obtain ⟨iht, ihb, iha⟩ := ih as (fun x hx => hb x (List.mem_cons_of_mem _ hx))
        (fun x hx => ha x (List.mem_cons_of_mem _ hx))
      have hbq : 0 < b.quantity := hb b (List.mem_cons_self _ _)
      have haq : 0 < a.quantity := ha a (List.mem_cons_self _ _)
      refine ⟨?_, ?_, ?_⟩
      · intro t ht
        simp only [innerPass, List.mem_cons] at ht
        rcases ht with rfl | ht
        · simpa using Nat.lt_min.mpr ⟨hbq, haq⟩
        · exact iht t ht
      · intro x hx
        simp only [innerPass] at hx
        by_cases hb0 : b.quantity - min b.quantity a.quantity = 0
        · rw [if_pos hb0] at hx
          exact ihb x hx
        · rw [if_neg hb0] at hx
          rcases List.mem_cons.mp hx with rfl | hx
          · simpa using Nat.pos_of_ne_zero hb0
          · exact ihb x hx
      · intro x hx
        simp only [innerPass] at hx
        by_cases ha0 : a.quantity - min b.quantity a.quantity = 0
        · rw [if_pos ha0] at hx
          exact iha x hx
        · rw [if_neg ha0] at hx
          rcases List.mem_cons.mp hx with rfl | hx
          · simpa using Nat.pos_of_ne_zero ha0
          · exact iha x hx

theorem innerPass_ids_bid (p : Price) (bs as : Orders) :
    ∀ x ∈ (innerPass p bs as).1, ∃ b ∈ bs, x.orderID = b.orderID := by
  induction bs generalizing as with
  | nil => simp [innerPass_nil_left]
  | cons b bs ih =>
    cases as with
    | nil =>
      simp only [innerPass_nil_right]
      intro x hx
      exact ⟨x, hx, rfl⟩
    | cons a as =>
      intro x hx
      simp only [innerPass] at hx
      by_cases hb0 : b.quantity - min b.quantity a.quantity = 0
      · rw [if_pos hb0] at hx
        obtain ⟨b', hb', he⟩ := ih as x hx
        exact ⟨b', List.mem_cons_of_mem _ hb', he⟩
      · rw [if_neg hb0] at hx
        rcases List.mem_cons.mp hx with rfl | hx
        · exact ⟨b, List.mem_cons_self _ _, rfl⟩
        · obtain ⟨b', hb', he⟩ := ih as x hx
          exact ⟨b', List.mem_cons_of_mem _ hb', he⟩

theorem innerPass_ids_ask (p : Price) (bs as : Orders) :
    ∀ x ∈ (innerPass p bs as).2.1, ∃ a ∈ as, x.orderID = a.orderID := by
  induction bs generalizing as with
  | nil =>
    simp only [innerPass_nil_left]
    intro x hx
    exact ⟨x, hx, rfl⟩
  | cons b bs ih =>
    cases as with
    | nil => simp [innerPass_nil_right]
    | cons a as =>
      intro x hx
      simp only [innerPass] at hx
      by_cases ha0 : a.quantity - min b.quantity a.quantity = 0
      · rw [if_pos ha0] at hx
        obtain ⟨a', ha', he⟩ := ih as x hx
        exact ⟨a', List.mem_cons_of_mem _ ha', he⟩
      · rw [if_neg ha0] at hx
        rcases List.mem_cons.mp hx with rfl | hx
        · exact ⟨a, List.mem_cons_self _ _, rfl⟩
        · obtain ⟨a', ha', he⟩ := ih as x hx
          exact ⟨a', List.mem_cons_of_mem _ ha', he⟩

theorem innerPass_trades_src (p : Price) (bs as : Orders) :
    ∀ t ∈ (innerPass p bs as).2.2.1, t.price = p ∧
      (∃ b ∈ bs, b.orderID = t.bidOrderID) ∧
      (∃ a ∈ as, a.orderID = t.askOrderID) := by
  induction bs generalizing as with
  | nil => simp [innerPass_nil_left]
  | cons b bs ih =>
    cases as with
    | nil => simp [innerPass_nil_right]
    | cons a as =>
      intro t ht
      simp only [innerPass, List.mem_cons] at ht
      rcases ht with rfl | ht
      · exact ⟨rfl, ⟨b, List.mem_cons_self _ _, rfl⟩,
          ⟨a, List.mem_cons_self _ _, rfl⟩⟩
      · obtain ⟨h1, ⟨b', hb', h2⟩, ⟨a', ha', h3⟩⟩ := ih as t ht
        exact ⟨h1, ⟨b', List.mem_cons_of_mem _ hb', h2⟩,
          ⟨a', List.mem_cons_of_mem _ ha', h3⟩⟩

theorem innerPass_len_le (p : Price) (bs as : Orders) :
    (innerPass p bs as).1.length ≤ bs.length ∧
      (innerPass p bs as).2.1.length ≤ as.length := by
  induction bs generalizing as with
  | nil => simp [innerPass_nil_left]
  | cons b bs ih =>
    cases as with
    | nil => simp [innerPass_nil_right]
    | cons a as =>
      obtain ⟨ih1, ih2⟩ := ih as
      rcases hr : innerPass p bs as with ⟨rb, ra, ts, rem⟩
      simp only [hr] at ih1 ih2
      simp only [innerPass, hr]
      constructor <;>
        [ by_cases hc : b.quantity - min b.quantity a.quantity = 0;
          by_cases hc : a.quantity - min b.quantity a.quantity = 0 ] <;>
        simp [hc] <;>
        omega

theorem innerPass_len_lt (p : Price) (b a : Order) (bs as : Orders) :
    (innerPass p (b :: bs) (a :: as)).1.length +
        (innerPass p (b :: bs) (a :: as)).2.1.length <
      (b :: bs).length + (a :: as).length := by
  obtain ⟨h1, h2⟩ := innerPass_len_le p bs as
  rcases hr : innerPass p bs as with ⟨rb, ra, ts, rem⟩
  simp only [hr] at h1 h2
  simp only [innerPass, hr]
  rcases Nat.le_total b.quantity a.quantity with hle | hle
  · rw [min_eq_left hle]
    by_cases hc : a.quantity - b.quantity = 0 <;>
      simp only [Nat.sub_self, if_true, hc, Bool.false_eq_true, if_false,
        List.length_cons] <;>
      omega
  · rw [min_eq_right hle]
    by_cases hc : b.quantity - a.quantity = 0 <;>
      simp only [Nat.sub_self, if_true, hc, Bool.false_eq_true, if_false,
        List.length_cons] <;>
      omega

/-! ### Outer-loop lemmas for `match()` -/

theorem matchLoop_zero (B : OrderBook) : matchLoop 0 B = (B, []) := rfl

theorem numOrders_mk (bs as : PriceLevels) (om : OrderMap) :
    numOrders ⟨bs, as, om⟩ =
      (bs.map (fun e => e.2.length)).sum + (as.map (fun e => e.2.length)).sum :=
  rfl

theorem numLevels_mk (bs as : PriceLevels) (om : OrderMap) :
    numLevels ⟨bs, as, om⟩ = bs.length + as.length := rfl

theorem matchLoop_succ_cons (fuel : Nat) (pb pa : Price) (qb qa : Orders)
    (restB restA : PriceLevels) (om : OrderMap) (h : ¬ pb < pa) :
    matchLoop (fuel + 1) ⟨(pb, qb) :: restB, (pa, qa) :: restA, om⟩ =
      ((matchLoop fuel
          ⟨if (innerPass pa qb qa).1.isEmpty then restB
            else (pb, (innerPass pa qb qa).1) :: restB,
           if (innerPass pa qb qa).2.1.isEmpty then restA
            else (pa, (innerPass pa qb qa).2.1) :: restA,
           stripRemoved om (innerPass pa qb qa).2.2.2⟩).1,
       (innerPass pa qb qa).2.2.1 ++
        (matchLoop fuel
          ⟨if (innerPass pa qb qa).1.isEmpty then restB
            else (pb, (innerPass pa qb qa).1) :: restB,
           if (innerPass pa qb qa).2.1.isEmpty then restA
            else (pa, (innerPass pa qb qa).2.1) :: restA,
           stripRemoved om (innerPass pa qb qa).2.2.2⟩).2) := by
  simp [matchLoop, h]

theorem restingIn_step {p0 : Price} {q r : Orders} {rest : PriceLevels}
    {p : Price} {id : OrderID}
    (hids : ∀ x ∈ r, ∃ b ∈ q, x.orderID = b.orderID)
    (h : restingIn (if r.isEmpty then rest else (p0, r) :: rest) p id) :
    restingIn ((p0, q) :: rest) p id := by
  by_cases he : r.isEmpty
  · rw [if_pos he] at h
    obtain ⟨lvl, hm, hx⟩ := h
    exact ⟨lvl, List.mem_cons_of_mem _ hm, hx⟩
  · rw [if_neg he] at h
    obtain ⟨lvl, hm, x, hx, hid⟩ := h
    rcases List.mem_cons.mp hm with heq | hm'
    · obtain ⟨rfl, rfl⟩ := Prod.mk.injEq .. ▸ heq
      obtain ⟨b, hb, hbe⟩ := hids x hx
      exact ⟨q, List.mem_cons_self _ _, b, hb, hbe ▸ hid⟩
    · exact ⟨lvl, List.mem_cons_of_mem _ hm', x, hx, hid⟩

theorem matchLoop_trades_src (fuel : Nat) (B : OrderBook) :
    ∀ t ∈ (matchLoop fuel B).2, ∃ pb pa,
      restingIn B.bids pb t.bidOrderID ∧ restingIn B.asks pa t.askOrderID ∧
        pa ≤ pb ∧ t.price = pa := by
  induction fuel generalizing B with
  | zero => simp [matchLoop]
  | succ n ih =>
    obtain ⟨bids, asks, om⟩ := B
    cases bids with
    | nil => simp [matchLoop]
    | cons eb restB =>
      cases asks with
      | nil => simp [matchLoop]
      | cons ea restA =>
        obtain ⟨pb, qb⟩ := eb
        obtain ⟨pa, qa⟩ := ea
        by_cases hlt : pb < pa
        · simp [matchLoop, hlt]
        · rw [matchLoop_succ_cons n pb pa qb qa restB restA om hlt]
          intro t ht
          simp only [List.mem_append] at ht
          rcases ht with ht | ht
          · obtain ⟨hp, ⟨b, hb, hbid⟩, ⟨a, ha, haid⟩⟩ :=
              innerPass_trades_src pa qb qa t ht
            exact ⟨pb, pa,
              ⟨qb, List.mem_cons_self _ _, b, hb, hbid⟩,
              ⟨qa, List.mem_cons_self _ _, a, ha, haid⟩,
              not_lt.mp hlt, hp⟩
          · obtain ⟨pb', pa', h1, h2, h3, h4⟩ := ih _ t ht
            exact ⟨pb', pa',
              restingIn_step (innerPass_ids_bid pa qb qa) h1,
              restingIn_step (innerPass_ids_ask pa qb qa) h2, h3, h4⟩

theorem totalQty_cons (p : Price) (l : Orders) (rest : PriceLevels) :
    totalQty ((p, l) :: rest) = levelQty l + totalQty rest := by
  simp [totalQty]

theorem totalQty_if (p : Price) (l : Orders) (rest : PriceLevels) :
    totalQty (if l.isEmpty then rest else (p, l) :: rest) =
      levelQty l + totalQty rest := by
  by_cases he : l.isEmpty
  · rw [if_pos he]
    rw [List.isEmpty_iff] at he
    simp [he, levelQty]
  · rw [if_neg he, totalQty_cons]

theorem tradesQty_append (ts us : List Trade) :
    tradesQty (ts ++ us) = tradesQty ts + tradesQty us := by
  simp [tradesQty]

theorem matchLoop_qty_bid (fuel : Nat) (B : OrderBook) :
    tradesQty (matchLoop fuel B).2 + totalQty (matchLoop fuel B).1.bids =
      totalQty B.bids := by
  induction fuel generalizing B with
  | zero => simp [matchLoop, tradesQty]
  | succ n ih =>
    obtain ⟨bids, asks, om⟩ := B
    cases bids with
    | nil => simp [matchLoop, tradesQty]
    | cons eb restB =>
      cases asks with
      | nil => simp [matchLoop, tradesQty]
      | cons ea restA =>
        obtain ⟨pb, qb⟩ := eb
        obtain ⟨pa, qa⟩ := ea
        by_cases hlt : pb < pa
        · simp [matchLoop, hlt, tradesQty]
        · rw [matchLoop_succ_cons n pb pa qb qa restB restA om hlt]
          have hip := innerPass_qty_bid pa qb qa
          have hih := ih (⟨if (innerPass pa qb qa).1.isEmpty then restB
              else (pb, (innerPass pa qb qa).1) :: restB,
            if (innerPass pa qb qa).2.1.isEmpty then restA
              else (pa, (innerPass pa qb qa).2.1) :: restA,
            stripRemoved om (innerPass pa qb qa).2.2.2⟩ : OrderBook)
          simp only [tradesQty_append, totalQty_cons, totalQty_if] at hih ⊢
          omega

theorem matchLoop_qty_ask (fuel : Nat) (B : OrderBook) :
    tradesQty (matchLoop fuel B).2 + totalQty (matchLoop fuel B).1.asks =
      totalQty B.asks := by
  induction fuel generalizing B with
  | zero => simp [matchLoop, tradesQty]
  | succ n ih =>
    obtain ⟨bids, asks, om⟩ := B
    cases bids with
    | nil => simp [matchLoop, tradesQty]
    | cons eb restB =>
      cases asks with
      | nil => simp [matchLoop, tradesQty]
      | cons ea restA =>
        obtain ⟨pb, qb⟩ := eb
        obtain ⟨pa, qa⟩ := ea
        by_cases hlt : pb < pa
        · simp [matchLoop, hlt, tradesQty]
        · rw [matchLoop_succ_cons n pb pa qb qa restB restA om hlt]
          have hip := innerPass_qty_ask pa qb qa
          have hih := ih (⟨if (innerPass pa qb qa).1.isEmpty then restB
              else (pb, (innerPass pa qb qa).1) :: restB,
            if (innerPass pa qb qa).2.1.isEmpty then restA
              else (pa, (innerPass pa qb qa).2.1) :: restA,
            stripRemoved om (innerPass pa qb qa).2.2.2⟩ : OrderBook)
          simp only [tradesQty_append, totalQty_cons, totalQty_if] at hih ⊢
          omega

theorem allResidentPos_step {pb pa : Price} {qb qa : Orders}
    {restB restA : PriceLevels} {om om' : OrderMap}
    (h : allResidentPos ⟨(pb, qb) :: restB, (pa, qa) :: restA, om⟩) :
    allResidentPos ⟨if (innerPass pa qb qa).1.isEmpty then restB
        else (pb, (innerPass pa qb qa).1) :: restB,
      if (innerPass pa qb qa).2.1.isEmpty then restA
        else (pa, (innerPass pa qb qa).2.1) :: restA, om'⟩ := by
  obtain ⟨hb, ha⟩ := h
  have hqb : ∀ x ∈ qb, 0 < x.quantity := hb _ (List.mem_cons_self _ _)
  have hqa : ∀ x ∈ qa, 0 < x.quantity := ha _ (List.mem_cons_self _ _)
  obtain ⟨-, hsb, hsa⟩ := innerPass_pos pa qb qa hqb hqa
  constructor
  · intro e he
    by_cases hemp : (innerPass pa qb qa).1.isEmpty
    · rw [if_pos hemp] at he
      exact hb e (List.mem_cons_of_mem _ he)
    · rw [if_neg hemp] at he
      rcases List.mem_cons.mp he with rfl | he'
      · exact hsb
      · exact hb e (List.mem_cons_of_mem _ he')
  · intro e he
    by_cases hemp : (innerPass pa qb qa).2.1.isEmpty
    · rw [if_pos hemp] at he
      exact ha e (List.mem_cons_of_mem _ he)
    · rw [if_neg hemp] at he
      rcases List.mem_cons.mp he with rfl | he'
      · exact hsa
      · exact ha e (List.mem_cons_of_mem _ he')

theorem matchLoop_pos (fuel : Nat) (B : OrderBook)
    (h : allResidentPos B) : ∀ t ∈ (matchLoop fuel B).2, 0 < t.quantity := by
  induction fuel generalizing B with
  | zero => simp [matchLoop]
  | succ n ih =>
    obtain ⟨bids, asks, om⟩ := B
    cases bids with
    | nil => simp [matchLoop]
    | cons eb restB =>
      cases asks with
      | nil => simp [matchLoop]
      | cons ea restA =>
        obtain ⟨pb, qb⟩ := eb
        obtain ⟨pa, qa⟩ := ea
        by_cases hlt : pb < pa
        · simp [matchLoop, hlt]
        · rw [matchLoop_succ_cons n pb pa qb qa restB restA om hlt]
          intro t ht
          simp only [List.mem_append] at ht
          rcases ht with ht | ht
          · obtain ⟨hts, -, -⟩ := innerPass_pos pa qb qa
              (h.1 _ (List.mem_cons_self _ _)) (h.2 _ (List.mem_cons_self _ _))
            exact hts t ht
          · exact ih _ (allResidentPos_step h) t ht

theorem matchLoop_noCross (fuel : Nat) (B : OrderBook)
    (h : numOrders B + numLevels B ≤ fuel) :
    noCross (matchLoop fuel B).1 := by
  induction fuel generalizing B with
  | zero =>
    rw [matchLoop_zero]
    have h2 : B.bids.length = 0 := by
      unfold numOrders numLevels at h
      omega
    left
    simp [bestBidPrice, List.length_eq_zero.mp h2]
  | succ n ih =>
    obtain ⟨bids, asks, om⟩ := B
    cases bids with
    | nil => left; simp [matchLoop, bestBidPrice]
    | cons eb restB =>
      cases asks with
      | nil => right; left; simp [matchLoop, bestAskPrice]
      | cons ea restA =>
        obtain ⟨pb, qb⟩ := eb
        obtain ⟨pa, qa⟩ := ea
        by_cases hlt : pb < pa
        · right; right
          exact ⟨pb, pa, by simp [matchLoop, hlt, bestBidPrice],
            by simp [matchLoop, hlt, bestAskPrice], hlt⟩
        · rw [matchLoop_succ_cons n pb pa qb qa restB restA om hlt]
          apply ih
          have hfits : numOrders ⟨(pb, qb) :: restB, (pa, qa) :: restA, om⟩ =
              qb.length + (restB.map (fun e => e.2.length)).sum +
              (qa.length + (restA.map (fun e => e.2.length)).sum) := by
            simp [numOrders]
          have hlen1 : ((if (innerPass pa qb qa).1.isEmpty then restB
              else (pb, (innerPass pa qb qa).1) :: restB).map
                (fun e => e.2.length)).sum =
              (innerPass pa qb qa).1.length +
                (restB.map (fun e => e.2.length)).sum := by
            by_cases he : (innerPass pa qb qa).1.isEmpty
            · rw [if_pos he, List.isEmpty_iff.mp he]
              simp
            · rw [if_neg he]
              simp
          have hlen2 : ((if (innerPass pa qb qa).2.1.isEmpty then restA
              else (pa, (innerPass pa qb qa).2.1) :: restA).map
                (fun e => e.2.length)).sum =
              (innerPass pa qb qa).2.1.length +
                (restA.map (fun e => e.2.length)).sum := by
            by_cases he : (innerPass pa qb qa).2.1.isEmpty
            · rw [if_pos he, List.isEmpty_iff.mp he]
              simp
            · rw [if_neg he]
              simp
          have hnl1 : (if (innerPass pa qb qa).1.isEmpty then restB
              else (pb, (innerPass pa qb qa).1) :: restB).length ≤
              restB.length + 1 := by
            by_cases he : (innerPass pa qb qa).1.isEmpty <;>
              simp [he]
          have hnl2 : (if (innerPass pa qb qa).2.1.isEmpty then restA
              else (pa, (innerPass pa qb qa).2.1) :: restA).length ≤
              restA.length + 1 := by
            by_cases he : (innerPass pa qb qa).2.1.isEmpty <;>
              simp [he]
          have hdec : (innerPass pa qb qa).1.length +
                (innerPass pa qb qa).2.1.length + 1 ≤ qb.length + qa.length ∨
              ((innerPass pa qb qa).1.length +
                  (innerPass pa qb qa).2.1.length ≤ qb.length + qa.length ∧
                ((if (innerPass pa qb qa).1.isEmpty then restB
                    else (pb, (innerPass pa qb qa).1) :: restB).length +
                  (if (innerPass pa qb qa).2.1.isEmpty then restA
                    else (pa, (innerPass pa qb qa).2.1) :: restA).length + 1 ≤
                  restB.length + 1 + (restA.length + 1))) := by
            cases qb with
            | nil =>
              right
              rw [innerPass_nil_left]
              constructor
              · simp
              · simp
                cases qa <;> simp [innerPass_nil_left] <;> omega
            | cons b qbs =>
              cases qa with
              | nil =>
                right
                rw [innerPass_nil_right]
                constructor
                · simp
                · simp [innerPass_nil_right]
                  omega
              | cons a qas =>
                left
                have := innerPass_len_lt pa b a qbs qas
                simp only [List.length_cons] at this ⊢
                omega
          simp only [numOrders_mk, numLevels_mk, hlen1, hlen2] at h ⊢
          simp only [List.map_cons, List.sum_cons, List.length_cons] at h
          rcases hdec with hd | ⟨hd1, hd2⟩ <;> omega

/-- **C3.** Every trade emitted by `match()` carries as its trade price the
ask side's price at the matched level: for each emitted trade the entry book
has an ask level whose key equals the trade's price and which holds the
matched ask order.  Since a match call never moves an order between levels
or changes a level's key, the entry-book key IS the best-ask level key at
the moment of the pairing; the property holds for every book, hence
regardless of which side rested first. -/
theorem claimC3 (B : OrderBook) :
    ∀ t ∈ (B.matchOrders).2, askRestingAt B t.price t.askOrderID := by
  intro t ht
  obtain ⟨pb, pa, h1, h2, h3, h4⟩ :=
    matchLoop_trades_src (matchFuel B) B t ht
  rw [askRestingAt, h4]
  exact h2

/-- Witness for C3: in `witnessBook` the emitted trade (bid 1, ask 2, price
100, qty 3) carries the resting ask's level price 100. -/
theorem claimC3_witness : askRestingAt witnessBook 100 2 :=
  claimC3 witnessBook ⟨1, 2, "A", 100, 3⟩ (by decide)

/-- **C4.** For every book state at entry to `match()` whose resident
quantities are strictly positive (the data-model invariant), the sum of
matched quantities over all emitted trades is at most the minimum of the
total resident bid and ask quantities at entry, and every emitted trade's
quantity is strictly positive. -/
theorem claimC4 (B : OrderBook) (h : allResidentPos B) :
    tradesQty (B.matchOrders).2 ≤
      min (totalQty B.bids) (totalQty B.asks) ∧
    ∀ t ∈ (B.matchOrders).2, 0 < t.quantity := by
  constructor
  · have h1 := matchLoop_qty_bid (matchFuel B) B
    have h2 := matchLoop_qty_ask (matchFuel B) B
    unfold OrderBook.matchOrders
    refine le_min ?_ ?_ <;> omega
  · exact matchLoop_pos (matchFuel B) B h

/-- Witness for C4: on `witnessBook` (total bid qty 5, total ask qty 3) the
single trade of quantity 3 respects the bound. -/
theorem claimC4_witness :
    tradesQty (witnessBook.matchOrders).2 ≤
      min (totalQty witnessBook.bids) (totalQty witnessBook.asks) :=
  (claimC4 witnessBook (by unfold allResidentPos; decide)).1

/-- **C5.** `match()` never emits a trade whose bid order's resting price is
strictly below its ask order's resting price (prices read off the entry
book's level keys), and when it terminates either a side index is empty or
the best bid price is strictly below the best ask price — no crossed
top-of-book remains. -/
theorem claimC5 (B : OrderBook) :
    (∀ t ∈ (B.matchOrders).2, ∃ pb pa, bidRestingAt B pb t.bidOrderID ∧
      askRestingAt B pa t.askOrderID ∧ pa ≤ pb) ∧
    noCross (B.matchOrders).1 := by
  constructor
  · intro t ht
    obtain ⟨pb, pa, h1, h2, h3, h4⟩ :=
      matchLoop_trades_src (matchFuel B) B t ht
    exact ⟨pb, pa, h1, h2, h3⟩
  · exact matchLoop_noCross (matchFuel B) B (le_of_eq rfl)

/-- Witness for C5: on `witnessBook`, the emitted trade's bid rests at 101 ≥
100 where its ask rests, and the final book (ask side empty) has no crossed
top of book. -/
theorem claimC5_witness :
    (∃ pb pa, bidRestingAt witnessBook pb 1 ∧
      askRestingAt witnessBook pa 2 ∧ pa ≤ pb) ∧
    noCross (witnessBook.matchOrders).1 :=
  ⟨(claimC5 witnessBook).1 ⟨1, 2, "A", 100, 3⟩ (by decide),
   (claimC5 witnessBook).2⟩

end OrderBookSpec

namespace MultimapVariant

/-! ### The aggressive `match(order&)` of the multimap variant (C9) -/

theorem matchBuyLoop_bids (bids asks : PriceLevel) (q : Nat) :
    (matchBuyLoop bids asks q).1 = bids := by
  induction asks generalizing q with
  | nil => by_cases hq : q = 0 <;> simp [matchBuyLoop, hq]
  | cons ea rest ih =>
    obtain ⟨pa, a⟩ := ea
    by_cases hq : q = 0
    · simp [matchBuyLoop, hq]
    · by_cases ha : a.quantity - min q a.quantity = 0
      · cases hside : a.side <;>
          simp [matchBuyLoop, hq, ha, hside, ih]
      · simp [matchBuyLoop, hq, ha]

theorem matchBuyLoop_post (bids asks : PriceLevel) (q : Nat) :
    (∀ e ∈ asks, e.2.side = OrderBookSpec.Side.Sell) →
    ((matchBuyLoop bids asks q).2.2 = 0 ∨
      (matchBuyLoop bids asks q).2.1 = []) := by
  induction asks generalizing q with
  | nil =>
    intro hs
    by_cases hq : q = 0
    · left; simp [matchBuyLoop, hq]
    · right; simp [matchBuyLoop, hq]
  | cons ea rest ih =>
    intro hs
    obtain ⟨pa, a⟩ := ea
    by_cases hq : q = 0
    · left; simp [matchBuyLoop, hq]
    · have hside : a.side = OrderBookSpec.Side.Sell :=
        hs (pa, a) (List.mem_cons_self _ _)
      by_cases ha : a.quantity - min q a.quantity = 0
      · simpa [matchBuyLoop, hq, ha, hside] using
          ih (q - min q a.quantity)
            (fun e he => hs e (List.mem_cons_of_mem _ he))
      · left
        simp only [matchBuyLoop, if_neg hq, ha, Bool.false_eq_true, if_false]
        rcases Nat.le_total q a.quantity with hle | hle
        · simp [min_eq_left hle]
        · exact absurd (by simp [min_eq_right hle]) ha

theorem matchBuyLoop_ids (bids asks : PriceLevel) (q : Nat) :
    ∀ e ∈ (matchBuyLoop bids asks q).2.1, ∃ f ∈ asks, e.2.id = f.2.id := by
  induction asks generalizing q with
  | nil => by_cases hq : q = 0 <;> simp [matchBuyLoop, hq]
  | cons ea rest ih =>
    obtain ⟨pa, a⟩ := ea
    by_cases hq : q = 0
    · simp only [matchBuyLoop, if_pos hq]
      intro e he
      exact ⟨e, he, rfl⟩
    · by_cases ha : a.quantity - min q a.quantity = 0
      · cases hside : a.side
        · simp only [matchBuyLoop, if_neg hq, ha, if_true, hside]
          intro e he
          rcases List.mem_cons.mp he with rfl | he'
          · exact ⟨(pa, a), List.mem_cons_self _ _, rfl⟩
          · exact ⟨e, List.mem_cons_of_mem _ he', rfl⟩
        · simp only [matchBuyLoop, if_neg hq, ha, if_true, hside]
          intro e he
          obtain ⟨f, hf, hfe⟩ := ih (q - min q a.quantity) e he
          exact ⟨f, List.mem_cons_of_mem _ hf, hfe⟩
      · simp only [matchBuyLoop, if_neg hq, ha, Bool.false_eq_true, if_false]
        intro e he
        rcases List.mem_cons.mp he with rfl | he'
        · exact ⟨(pa, a), List.mem_cons_self _ _, rfl⟩
        · exact ⟨e, List.mem_cons_of_mem _ he', rfl⟩

theorem matchSellLoop_asks (asks bids : PriceLevel) (q : Nat) :
    (matchSellLoop asks bids q).2.1 = asks := by
  induction bids, q using matchSellLoop.induct asks with
  | case1 bids =>
    rw [matchSellLoop.eq_def]
    simp
  | case2 bids q hq hlast =>
    rw [matchSellLoop.eq_def, if_neg hq, hlast]
  | case3 bids q hq pb b hlast m b' hb0 hside ih =>
    rw [matchSellLoop.eq_def, if_neg hq, hlast]
    simp only []
    rw [if_pos hb0]
    simp only [hside]
    exact ih
  | case4 bids q hq pb b hlast m b' hb0 hside =>
    rw [matchSellLoop.eq_def, if_neg hq, hlast]
    simp only []
    rw [if_pos hb0]
    simp [hside]
  | case5 bids q hq pb b hlast m b' hb0 =>
    rw [matchSellLoop.eq_def, if_neg hq, hlast]
    simp only []
    rw [if_neg hb0]

theorem matchSellLoop_post (asks bids : PriceLevel) (q : Nat) :
    (∀ e ∈ bids, e.2.side = OrderBookSpec.Side.Buy) →
    ((matchSellLoop asks bids q).2.2 = 0 ∨
      (matchSellLoop asks bids q).1 = []) := by
  induction bids, q using matchSellLoop.induct asks with
  | case1 bids =>
    intro hs
    left
    rw [matchSellLoop.eq_def]
    simp
  | case2 bids q hq hlast =>
    intro hs
    right
    rw [matchSellLoop.eq_def, if_neg hq, hlast]
  | case3 bids q hq pb b hlast m b' hb0 hside ih =>
    intro hs
    rw [matchSellLoop.eq_def, if_neg hq, hlast]
    simp only []
    rw [if_pos hb0]
    simp only [hside]
    exact ih (fun e he => hs e ((List.dropLast_sublist bids).subset he))
  | case4 bids q hq pb b hlast m b' hb0 hside =>
    intro hs
    have := hs (pb, b) (List.mem_of_getLast?_eq_some hlast)
    rw [hside] at this
    simp at this
  | case5 bids q hq pb b hlast m b' hb0 =>
    intro hs
    left
    rw [matchSellLoop.eq_def, if_neg hq, hlast]
    simp only []
    rw [if_neg hb0]
    have hb0' : ¬ b.quantity - min q b.quantity = 0 := hb0
    rcases Nat.le_total q b.quantity with hle | hle
    · simp [min_eq_left hle]
    · exact absurd (by simp [min_eq_right hle]) hb0'

theorem matchSellLoop_ids (asks bids : PriceLevel) (q : Nat) :
    ∀ e ∈ (matchSellLoop asks bids q).1, ∃ f ∈ bids, e.2.id = f.2.id := by
  induction bids, q using matchSellLoop.induct asks with
  | case1 bids =>
    rw [matchSellLoop.eq_def]
    simp only [if_pos rfl]
    intro e he
    exact ⟨e, he, rfl⟩
  | case2 bids q hq hlast =>
    rw [matchSellLoop.eq_def, if_neg hq, hlast]
    simp
  | case3 bids q hq pb b hlast m b' hb0 hside ih =>
    rw [matchSellLoop.eq_def, if_neg hq, hlast]
    simp only []
    rw [if_pos hb0]
    simp only [hside]
    intro e he
    obtain ⟨f, hf, hfe⟩ := ih e he
    exact ⟨f, (List.dropLast_sublist bids).subset hf, hfe⟩
  | case4 bids q hq pb b hlast m b' hb0 hside =>
    rw [matchSellLoop.eq_def, if_neg hq, hlast]
    simp only []
    rw [if_pos hb0]
    simp only [hside]
    intro e he
    rcases List.mem_append.mp he with he' | he'
    · exact ⟨e, (List.dropLast_sublist bids).subset he', rfl⟩
    · rcases List.mem_singleton.mp he' with rfl
      exact ⟨(pb, b), List.mem_of_getLast?_eq_some hlast, rfl⟩
  | case5 bids q hq pb b hlast m b' hb0 =>
    rw [matchSellLoop.eq_def, if_neg hq, hlast]
    simp only []
    rw [if_neg hb0]
    intro e he
    rcases List.mem_append.mp he with he' | he'
    · exact ⟨e, (List.dropLast_sublist bids).subset he', rfl⟩
    · rcases List.mem_singleton.mp he' with rfl
      exact ⟨(pb, b), List.mem_of_getLast?_eq_some hlast, rfl⟩

/-- **C9.** The aggressive variant `match(incomingOrder)` repeatedly
executes the incoming order against the best opposite-side resting order
with the min-quantity rule, removing fully filled resting orders, and
returns exactly when the incoming order's remaining quantity is zero or the
opposite side is empty; an unfilled remainder is NOT inserted into the book
— if the incoming identifier was not resident before the call, no resident
order carries it afterwards.  Hypothesis: resting sides are well formed
(bids hold Buys, asks hold Sells), as `insert` guarantees. -/
theorem claimC9 (B : orderbook) (ord : order) (hs : sidesOK B) :
    ((matchAggressive B ord).2 = 0 ∨
      oppositeLevels (matchAggressive B ord).1 ord.side = []) ∧
    (idFree B ord.id → idFree (matchAggressive B ord).1 ord.id) := by
  cases hside : ord.side
  case Buy =>
    have hpost := matchBuyLoop_post B.bids B.asks ord.quantity hs.2
    have hbids := matchBuyLoop_bids B.bids B.asks ord.quantity
    have hids := matchBuyLoop_ids B.bids B.asks ord.quantity
    constructor
    · rcases hpost with h | h
      · left
        simp [matchAggressive, hside, h]
      · right
        simp [matchAggressive, hside, oppositeLevels, h]
    · intro hfree
      constructor
      · intro e he
        simp only [matchAggressive, hside] at he
        rw [hbids] at he
        exact hfree.1 e he
      · intro e he
        simp only [matchAggressive, hside] at he
        obtain ⟨f, hf, hfe⟩ := hids e he
        rw [hfe]
        exact hfree.2 f hf
  case Sell =>
    have hpost := matchSellLoop_post B.asks B.bids ord.quantity hs.1
    have hasks := matchSellLoop_asks B.asks B.bids ord.quantity
    have hids := matchSellLoop_ids B.asks B.bids ord.quantity
    constructor
    · rcases hpost with h | h
      · left
        simp [matchAggressive, hside, h]
      · right
        simp [matchAggressive, hside, oppositeLevels, h]
    · intro hfree
      constructor
      · intro e he
        simp only [matchAggressive, hside] at he
        obtain ⟨f, hf, hfe⟩ := hids e he
        rw [hfe]
        exact hfree.1 f hf
      · intro e he
        simp only [matchAggressive, hside] at he
        rw [hasks] at he
        exact hfree.2 e he

/-- Witness for C9: an aggressive Buy for 5 against a lone resting ask of
quantity 3 fully consumes the ask side and stops with remainder 2 left
un-rested. -/
theorem claimC9_witness :
    (matchAggressive ⟨[], [(100, ⟨2, 3, 100, "A", OrderBookSpec.Side.Sell⟩)]⟩
        ⟨9, 5, 101, "A", OrderBookSpec.Side.Buy⟩).2 = 0 ∨
    oppositeLevels
      (matchAggressive
          ⟨[], [(100, ⟨2, 3, 100, "A", OrderBookSpec.Side.Sell⟩)]⟩
          ⟨9, 5, 101, "A", OrderBookSpec.Side.Buy⟩).1
      OrderBookSpec.Side.Buy = [] :=
  (claimC9 ⟨[], [(100, ⟨2, 3, 100, "A", OrderBookSpec.Side.Sell⟩)]⟩
    ⟨9, 5, 101, "A", OrderBookSpec.Side.Buy⟩
    (by unfold sidesOK; decide)).1

end MultimapVariant

